import Mathlib

/-!
Shallow embedding of the WeeklyStocks trading engine (calendar service,
selection engine, stop/target policy, live monitor loop, and the position
safety governor) together with proofs about the specified properties.

Dates are modelled as days since an epoch that falls on a Monday, so that
`d % 7` is the weekday (0 = Monday, ..., 4 = Friday, 5-6 = weekend).
Prices and percentages are modelled as rationals; Python `round(x, 2)` is
modelled as round-half-to-even at two decimals, which agrees with CPython's
`round` on every input whose binary floating-point value is exact (all
concrete inputs used below are dyadic rationals, where the two coincide).
-/

namespace WeeklyStocks

/-- Python `round(x, 2)`: round to a multiple of 1/100, ties to even
(banker's rounding, as CPython does on the exact value of the float). -/
def round2 (q : ℚ) : ℚ :=
  let y : ℚ := q * 100
  let n : ℤ := ⌊y⌋
  let c : ℤ :=
    if y - (n : ℚ) = 1/2 then (if n % 2 = 0 then n else n + 1) else round y
  (c : ℚ) / 100

/-- Python `int(x)` (truncation toward zero) on a rational. -/
def pyTrunc (q : ℚ) : ℤ := if 0 ≤ q then ⌊q⌋ else ⌈q⌉

/-! ## Calendar service

`backtest_core.BacktestEngine.get_trading_weeks` and
`us_trading_calendar.{is_us_trading_day, friday_of_week,
next_us_trading_day, next_monday_trading_date}`. -/

/-- Next Monday at or after `d` (the `monday` computation inside the
week-finding loop of `get_trading_weeks`: `current` if it is a Monday,
otherwise `current + (7 - current.weekday())`). -/
def nextMonday (d : Nat) : Nat := if d % 7 = 0 then d else d + (7 - d % 7)

/-- The `while current <= end` loop of `get_trading_weeks`: emit complete
Monday-Friday weeks, advancing by `friday + 3` days, and a final partial
week `(monday, end)` if the range ends mid-week. -/
def weeksLoop (e : Nat) (current : Nat) : List (Nat × Nat) :=
  if _h : current ≤ e then
    if e < nextMonday current then []
    else if nextMonday current + 4 ≤ e then
      (nextMonday current, nextMonday current + 4) ::
        weeksLoop e (nextMonday current + 7)
    else [(nextMonday current, e)]
  else []
termination_by e + 1 - current
decreasing_by
  unfold nextMonday
  split <;> omega

/-- Model of `BacktestEngine.get_trading_weeks` (src/backtest_core.py): a range of at
most 7 days is a single week; otherwise an optional partial start week
`(start, Friday of start's week)` is produced when the start is not a Monday
(and that Friday is in range), then the main loop, then the fallback that
treats the whole range as one week if nothing was produced. -/
def get_trading_weeks (s e : Nat) : List (Nat × Nat) :=
  if e - s ≤ 7 then [(s, e)]
  else
    let w := s % 7
    let startPart : List (Nat × Nat) :=
      if w ≠ 0 ∧ w ≤ 4 ∧ s + (4 - w) ≤ e then [(s, s + (4 - w))] else []
    let c0 : Nat :=
      if w ≠ 0 ∧ w ≤ 4 ∧ s + (4 - w) ≤ e then s + (4 - w) + 3 else s
    let weeks := startPart ++ weeksLoop e c0
    if weeks.isEmpty then [(s, e)] else weeks

/-- Model of `is_us_trading_day` (src/us_trading_calendar.py): Monday-Friday and not
in the holiday set (the holiday calendar is the external `holidays` package,
modelled as a predicate on days). -/
def isTradingDay (hol : Nat → Bool) (d : Nat) : Bool :=
  decide (d % 7 < 5) && !(hol d)

/-- The `while not is_us_trading_day(f): f -= 1` loop of `friday_of_week`
(the extra `weekday < 0 or weekday > 4` conditions in the source are
subsumed: a weekend day is never a trading day).  The search stops at day 0,
which the source never reaches. -/
def stepBackTD (hol : Nat → Bool) : Nat → Nat
  | 0 => 0
  | d + 1 => if isTradingDay hol (d + 1) then d + 1 else stepBackTD hol d

/-- Model of `friday_of_week` (src/us_trading_calendar.py): Friday of the week of
`monday`, stepped back to the previous trading day while it is a holiday. -/
def friday_of_week (hol : Nat → Bool) (monday : Nat) : Nat :=
  stepBackTD hol (monday + 4)

/-- Model of `next_us_trading_day` (src/us_trading_calendar.py): the unbounded
`while` loop is given explicit fuel; 366 steps dominate any real holiday
calendar. -/
def next_us_trading_day (hol : Nat → Bool) : Nat → Nat → Nat
  | 0, d => d
  | fuel + 1, d =>
    if isTradingDay hol d then d else next_us_trading_day hol fuel (d + 1)

/-- Model of `next_monday_trading_date` (src/us_trading_calendar.py), on dates:
`days_ahead = (0 - weekday) % 7` (Python modulo, hence `(7 - w) % 7`), then
roll forward from `monday + 1` if the Monday is not a trading day. -/
def next_monday_trading_date (hol : Nat → Bool) (d : Nat) : Nat :=
  let monday := d + (7 - d % 7) % 7
  if isTradingDay hol monday then monday
  else next_us_trading_day hol 366 (monday + 1)

/-! ## Selection engine (src/backtest_core.py) -/

/-- Model of `BacktestEngine.calculate_momentum`: percentage change over
`min(days, len - 1)` samples; 0 when fewer than 1 day of history.
`prices.iloc[-(available+1)]` is index `len - (available + 1)`. -/
def calculate_momentum (prices : List ℚ) (days : Nat) : ℚ :=
  let available := min days (prices.length - 1)
  if available < 1 then 0
  else
    let current := prices.getLastD 0
    let past := prices.getD (prices.length - (available + 1)) 0
    (current - past) / past * 100

abbrev Scored := String × ℚ

/-- Stable insertion into an accumulator: `x` is placed before the first
element `y` with `before x y`; earlier elements keep their place. -/
def insertStable (before : α → α → Bool) (x : α) : List α → List α
  | [] => [x]
  | y :: ys => if before x y then x :: y :: ys else y :: insertStable before x ys

/-- Stable sort (extensionally equal to CPython's stable `list.sort`):
an element moves before a later element exactly when `before` holds, and
ties keep original order provided `before` holds on ties. -/
def sortStable (before : α → α → Bool) : List α → List α
  | [] => []
  | x :: xs => insertStable before x (sortStable before xs)

/-- Descending stable sort by momentum score, as in
`rankings.sort(key=lambda x: x[1], reverse=True)`: an earlier element stays
before a later one unless the later one's score is strictly greater. -/
def sortDesc (l : List Scored) : List Scored :=
  sortStable (fun a b => decide (b.2 ≤ a.2)) l

/-- The ranking construction in `BacktestEngine.run_backtest`: candidates
with fewer than 2 price samples in the week are skipped, the rest are scored
by `calculate_momentum` with the default 5-day lookback. -/
def weekRankings (univ : List (String × List ℚ)) : List Scored :=
  univ.filterMap fun sc =>
    if sc.2.length < 2 then none else some (sc.1, calculate_momentum sc.2 5)

/-- Selection step `rankings.sort(...); rankings[:min(topN, len(rankings))]`
(`topN` is 5 in `run_backtest`; kept as a parameter). -/
def selectTop (univ : List (String × List ℚ)) (topN : Nat) : List Scored :=
  let sorted := sortDesc (weekRankings univ)
  sorted.take (min topN sorted.length)

/-! ## Replay-mode trade simulation (src/backtest_core.py) -/

/-- A daily bar: (date, open, close). -/
abbrev Bar := Nat × ℚ × ℚ

/-- Entry price in `BacktestEngine.simulate_trade`: the Open of the first
bar with index >= entry_date. -/
def entryOpen (bars : List Bar) (entry_date : Nat) : Option ℚ :=
  ((bars.filter fun b => decide (entry_date ≤ b.1)).head?).map fun b => b.2.1

/-- Exit price in `BacktestEngine.simulate_trade`: the Close of the last
bar with index <= exit_date. -/
def exitClose (bars : List Bar) (exit_date : Nat) : Option ℚ :=
  ((bars.filter fun b => decide (b.1 ≤ exit_date)).getLast?).map fun b => b.2.2

/-- Model of `BacktestEngine.simulate_trade` without the journalled metadata: the raw
return is capped at `expected_return_pct` and floored at `-stop_loss_pct`,
in that order, exactly as the two `if` statements in the source. -/
def simulate_trade (bars : List Bar) (entry_date exit_date : Nat)
    (er_pct stop_pct : ℚ) : Option ℚ :=
  match entryOpen bars entry_date, exitClose bars exit_date with
  | some pe, some px =>
    let r := (px - pe) / pe * 100
    let r1 := if er_pct ≤ r then er_pct else r
    let r2 := if r1 ≤ -stop_pct then -stop_pct else r1
    some r2
  | _, _ => none

/-! ## Live monitor loop (src/ibkr_live_runner.py) -/

inductive TrailMode | percent | atrMode
deriving DecidableEq, Repr

structure LiveCfg where
  trailing_mode : TrailMode
  trailing_pct : ℚ
  trailing_atr_mult : ℚ
deriving Repr

/-- The live per-position state kept in `LiveState.positions`, plus
`stop_aux`: the `auxPrice` of the resting stop order at the broker (set in
`place_entry_and_stop` and modified by `modify_stop`). -/
structure LivePos where
  entry_price : ℚ
  atr : Option ℚ
  er_level : ℚ
  target_hit : Bool
  trail_level : ℚ
  stop_aux : ℚ
deriving DecidableEq, Repr

/-- A stop-order modification issued through `modify_stop`, tagged with the
`reason` string used in the source. -/
inductive StopEvent
  | protect_ER (price : ℚ)
  | trail_ratchet (price : ℚ)
deriving DecidableEq, Repr

def StopEvent.price : StopEvent → ℚ
  | protect_ER p => p
  | trail_ratchet p => p

def isProtectER : StopEvent → Bool
  | .protect_ER _ => true
  | .trail_ratchet _ => false

/-- The trailing candidate computed each tick in `monitor_loop`:
`entry*(1+pct)` in percent mode, `entry + mult*atr` in ATR mode when the
ATR is present and positive (`if p["atr"] and p["atr"] > 0`). -/
def trailCandidate (cfg : LiveCfg) (p : LivePos) : Option ℚ :=
  match cfg.trailing_mode with
  | .percent => some (p.entry_price * (1 + cfg.trailing_pct))
  | .atrMode =>
    match p.atr with
    | some a => if 0 < a then some (p.entry_price + cfg.trailing_atr_mult * a) else none
    | none => none

/-- The ER-protective block of the `monitor_loop` body: once
`last >= er_level` with `target_hit` still false, latch `target_hit` and
modify the stop to the ER level (rounded to cents by `modify_stop`, which
sets `auxPrice = round(new_stop, 2)`). -/
def erStep (p : LivePos) (last : ℚ) : LivePos × List StopEvent :=
  if p.target_hit = false ∧ p.er_level ≤ last then
    ({ p with target_hit := true, stop_aux := round2 p.er_level },
     [StopEvent.protect_ER (round2 p.er_level)])
  else (p, [])

/-- The trailing-ratchet block of the `monitor_loop` body, guarded by
`candidate and last >= candidate and candidate > trail_level` (the
truthiness test `candidate` excludes a zero candidate). -/
def trailStep (cfg : LiveCfg) (p : LivePos) (last : ℚ) :
    LivePos × List StopEvent :=
  match trailCandidate cfg p with
  | some cand =>
    if cand ≠ 0 ∧ cand ≤ last ∧ p.trail_level < cand then
      ({ p with trail_level := cand, stop_aux := round2 cand },
       [StopEvent.trail_ratchet (round2 cand)])
    else (p, [])
  | none => (p, [])

/-- One iteration of the `monitor_loop` body for a single position with
last price `last`: skip non-positive prices, then the ER protective raise,
then the trailing ratchet, exactly in the source's order.  Returns the new
state and the stop modifications issued, in order. -/
def tickPos (cfg : LiveCfg) (p : LivePos) (last : ℚ) : LivePos × List StopEvent :=
  if last ≤ 0 then (p, [])
  else
    let s1 := erStep p last
    let s2 := trailStep cfg s1.1 last
    (s2.1, s1.2 ++ s2.2)

/-- States observed across a sequence of monitoring ticks (the initial
state followed by the state after each tick). -/
def posHistory (cfg : LiveCfg) (p : LivePos) : List ℚ → List LivePos
  | [] => [p]
  | l :: ls => p :: posHistory cfg (tickPos cfg p l).1 ls

/-- All stop modifications issued across a sequence of monitoring ticks. -/
def runEvents (cfg : LiveCfg) (p : LivePos) : List ℚ → List StopEvent
  | [] => []
  | l :: ls => (tickPos cfg p l).2 ++ runEvents cfg (tickPos cfg p l).1 ls

/-- The EMA used by `spy_regime_ok`: pandas `ewm(span, adjust=False).mean().iloc[-1]`,
the recursive EWMA with alpha = 2/(span+1) seeded at the first sample. -/
def ema (prices : List ℚ) (span : Nat) : ℚ :=
  let α : ℚ := 2 / (span + 1)
  match prices with
  | [] => 0
  | x :: xs => xs.foldl (fun m x' => (1 - α) * m + α * x') x

/-- The SPY-vs-EMA half of `spy_regime_ok`: `spyBars = none` models a
failed/empty bar request; the check only runs when
`bars and len(bars) > ema_len+2`, otherwise it does not block. -/
def okEma (emaLen : Nat) (spyBars : Option (List ℚ)) : Bool :=
  if 0 < emaLen then
    match spyBars with
    | some bs =>
      if emaLen + 2 < bs.length then decide (ema bs emaLen < bs.getLastD 0)
      else true
    | none => true
  else true

/-- Model of `spy_regime_ok` (src/ibkr_live_runner.py): the SPY/EMA check followed
by the VIX ceiling check.  `vixRes = none` models the `except` branch of
the VIX lookup; `some vb` with `vb = []` models an empty VIX result
(skipped by `if vb`); the VIX check only runs when the result so far is
still ok and `max_vix > 0`. -/
def spy_regime_ok (emaLen : Nat) (maxVix : ℚ) (spyBars : Option (List ℚ))
    (vixRes : Option (List ℚ)) : Bool :=
  let ok1 := okEma emaLen spyBars
  if ok1 = true ∧ 0 < maxVix then
    match vixRes with
    | some vb =>
      if vb ≠ [] then ok1 && decide (vb.getLastD 0 ≤ maxVix) else ok1
    | none => ok1
  else ok1

/-- Share sizing in `monday_entries`: `qty = max(1, int(cap / px))`. -/
def entryQty (cap px : ℚ) : ℤ := max 1 (pyTrunc (cap / px))

/-! ## Position safety governor (src/position_safety.py) -/

/-- Configuration `SafetyLimits` with the source's defaults. -/
structure SafetyLimits where
  max_position_value : ℚ := 50000
  max_portfolio_value : ℚ := 500000
  max_daily_loss : ℚ := 10000
  max_position_concentration : ℚ := 15/100
  max_sector_concentration : ℚ := 30/100
  max_correlation_exposure : ℚ := 50/100
  emergency_stop_loss : ℚ := 1/10
  max_positions : Nat := 20
  min_cash_reserve : ℚ := 10000
deriving Repr

/-- A broker portfolio item as read by `ib.portfolio()` (the fields the
safety checks consume). -/
structure PortfolioItem where
  symbol : String
  position : ℤ
  marketValue : ℚ
  unrealizedPNL : ℚ
deriving DecidableEq, Repr

/-- A violation as produced by `_check_safety_violations` (the message and
recommended-action strings are presentation only and omitted). -/
structure Violation where
  vtype : String
  severity : String
deriving DecidableEq, Repr

/-- Positions entering the risk computation: `if item.position != 0`. -/
def activeItems (items : List PortfolioItem) : List PortfolioItem :=
  items.filter fun it => decide (it.position ≠ 0)

/-- The `total_value` in `perform_safety_check` / `_calculate_portfolio_risk`:
the sum of the market values of the nonzero positions. -/
def totalValue (items : List PortfolioItem) : ℚ :=
  ((activeItems items).map (·.marketValue)).sum

/-- The `daily_pnl` (= `total_pnl`, the source's simplification): the sum of
unrealized P&L over the nonzero positions. -/
def dailyPnl (items : List PortfolioItem) : ℚ :=
  ((activeItems items).map (·.unrealizedPNL)).sum

/-- Python `max(iterable, default=0)`. -/
def listMaxD (l : List ℚ) : ℚ :=
  match l with
  | [] => 0
  | x :: xs => xs.foldl max x

/-- The `max_position_concentration`: each concentration is
`market_value / total_value` when the total is positive, else 0. -/
def maxPositionConcentration (items : List PortfolioItem) : ℚ :=
  let tv := totalValue items
  listMaxD ((activeItems items).map fun it =>
    if 0 < tv then it.marketValue / tv else 0)

/-- Accumulate a value under a key, preserving first-insertion order
(Python dict `sector_values[s] = sector_values.get(s, 0) + v`). -/
def bumpKey : List (String × ℚ) → String → ℚ → List (String × ℚ)
  | [], s, v => [(s, v)]
  | (k, w) :: rest, s, v =>
    if k = s then (k, w + v) :: rest else (k, w) :: bumpKey rest s v

/-- The `sector_concentrations`: per-sector market value divided by the total,
empty when the total is not positive. -/
def sectorConcentrations (sectorOf : String → String)
    (items : List PortfolioItem) : List (String × ℚ) :=
  let tv := totalValue items
  let sectorValues := (activeItems items).foldl
    (fun acc it => bumpKey acc (sectorOf it.symbol) it.marketValue) []
  if 0 < tv then sectorValues.map (fun kv => (kv.1, kv.2 / tv)) else []

/-- Python truthiness of `self.daily_start_value` (`None` and `0.0` are
falsy). -/
def dsvTruthy (dsv : Option ℚ) : Bool :=
  match dsv with
  | some v => decide (v ≠ 0)
  | none => false

/-- Model of `PositionSafetyManager._check_safety_violations`, in the source's check
order.  `dsv` is `self.daily_start_value`, `cash` the account's
`TotalCashValue`, `sectorOf` the sector classifier. -/
def checkSafetyViolations (L : SafetyLimits) (dsv : Option ℚ)
    (items : List PortfolioItem) (cash : ℚ) (sectorOf : String → String) :
    List Violation :=
  let tv := totalValue items
  let pnl := dailyPnl items
  (if L.max_portfolio_value < tv
   then [⟨"portfolio_value_exceeded", "HIGH"⟩] else [])
  ++ (if dsvTruthy dsv = true ∧ pnl < -L.max_daily_loss
      then [⟨"daily_loss_exceeded", "CRITICAL"⟩] else [])
  ++ (match dsv with
      | some v =>
        if v ≠ 0 ∧ (tv - v) / v < -L.emergency_stop_loss
        then [⟨"emergency_stop_triggered", "CRITICAL"⟩] else []
      | none => [])
  ++ (if L.max_position_concentration < maxPositionConcentration items
      then [⟨"position_concentration_exceeded", "MEDIUM"⟩] else [])
  ++ ((sectorConcentrations sectorOf items).filterMap fun kv =>
      if L.max_sector_concentration < kv.2
      then some ⟨"sector_concentration_exceeded", "MEDIUM"⟩ else none)
  ++ ((activeItems items).filterMap fun it =>
      if L.max_position_value < it.marketValue
      then some ⟨"position_value_exceeded", "MEDIUM"⟩ else none)
  ++ (if cash < L.min_cash_reserve
      then [⟨"insufficient_cash_reserve", "LOW"⟩] else [])

/-- The market sell orders placed by `_emergency_close_all_positions`:
one per portfolio item with `item.position > 0`. -/
def emergencyCloseAll (items : List PortfolioItem) : List (String × ℤ) :=
  (items.filter fun it => decide (0 < it.position)).map
    fun it => (it.symbol, it.position)

/-- The market sell orders placed by `_close_losing_positions`: positions
with `position > 0` losing more than $1000, worst loss first (stable sort
by `unrealizedPNL` ascending). -/
def closeLosing (items : List PortfolioItem) : List (String × ℤ × ℚ) :=
  let losing := items.filter fun it =>
    decide (0 < it.position) && decide (it.unrealizedPNL < -1000)
  (sortStable (fun a b => decide (a.unrealizedPNL ≤ b.unrealizedPNL)) losing).map
    fun it => (it.symbol, it.position, it.unrealizedPNL)

inductive EmergencyAction
  | emergency_close_all (sells : List (String × ℤ))
  | close_losing_positions (sells : List (String × ℤ × ℚ))
deriving DecidableEq, Repr

def isCloseAll : EmergencyAction → Bool
  | .emergency_close_all _ => true
  | .close_losing_positions _ => false

/-- Model of `PositionSafetyManager.execute_emergency_actions`: for each CRITICAL
violation, an emergency-stop commands a full liquidation and a daily-loss
closes the losing positions.  No liquidation-in-progress state is
consulted. -/
def executeEmergencyActions (violations : List Violation)
    (items : List PortfolioItem) : List EmergencyAction :=
  violations.filterMap fun v =>
    if v.severity = "CRITICAL" then
      if v.vtype = "emergency_stop_triggered" then
        some (.emergency_close_all (emergencyCloseAll items))
      else if v.vtype = "daily_loss_exceeded" then
        some (.close_losing_positions (closeLosing items))
      else none
    else none

/-- One iteration of `run_safety_monitor`: perform the safety check
(violations computed against the current `daily_start_value`, which is then
initialised on first use, as in `perform_safety_check`), then execute
emergency actions on the CRITICAL violations if any. -/
def monitorTick (L : SafetyLimits) (sectorOf : String → String)
    (dsv : Option ℚ) (items : List PortfolioItem) (cash : ℚ) :
    Option ℚ × List Violation × List EmergencyAction :=
  let viols := checkSafetyViolations L dsv items cash sectorOf
  let dsvNew := match dsv with
    | none => some (totalValue items)
    | some v => some v
  let crit := viols.filter fun v => decide (v.severity = "CRITICAL")
  let acts := if crit.isEmpty then [] else executeEmergencyActions crit items
  (dsvNew, viols, acts)

/-- The emergency actions taken on each tick of `run_safety_monitor`,
given the portfolio snapshot and cash observed at each tick. -/
def monitorTrace (L : SafetyLimits) (sectorOf : String → String) :
    Option ℚ → List (List PortfolioItem × ℚ) → List (List EmergencyAction)
  | _, [] => []
  | dsv, (items, cash) :: rest =>
    let t := monitorTick L sectorOf dsv items cash
    t.2.2 :: monitorTrace L sectorOf t.1 rest

/-- Number of full-liquidation commands issued across a monitoring trace. -/
def countFullLiq (trace : List (List EmergencyAction)) : Nat :=
  (trace.map fun acts => acts.countP isCloseAll).sum

/-! ## Calendar lemmas -/

theorem le_nextMonday (d : Nat) : d ≤ nextMonday d := by
  unfold nextMonday; split <;> omega

theorem nextMonday_mod (d : Nat) : nextMonday d % 7 = 0 := by
  unfold nextMonday; split <;> omega

theorem nextMonday_lt (d : Nat) : nextMonday d < d + 7 := by
  unfold nextMonday; split <;> omega

/-- Days strictly before the next Monday of a Monday-or-weekend day are
weekend days. -/
theorem weekend_before_nextMonday (c d : Nat) (hc : c % 7 = 0 ∨ 5 ≤ c % 7)
    (h1 : c ≤ d) (h2 : d < nextMonday c) : 5 ≤ d % 7 := by
  unfold nextMonday at h2; split at h2 <;> omega

theorem weeksLoop_bounds (e c : Nat) :
    ∀ w ∈ weeksLoop e c, c ≤ w.1 ∧ w.1 ≤ w.2 ∧ w.2 ≤ e := by
  induction c using weeksLoop.induct e with
  | case1 x h1 h2 => rw [weeksLoop]; simp [h1, h2]
  | case2 x h1 h2 h3 ih =>
    rw [weeksLoop]
    simp only [h1, dite_true, if_neg h2, if_pos h3, List.mem_cons]
    rintro w (rfl | hw)
    · exact ⟨le_nextMonday x, by omega, h3⟩
    · have hb := ih w hw
      have hn := le_nextMonday x
      exact ⟨by omega, hb.2.1, hb.2.2⟩
  | case3 x h1 h2 h3 =>
    rw [weeksLoop]
    simp only [h1, dite_true, if_neg h2, if_neg h3, List.mem_singleton]
    rintro w rfl
    exact ⟨le_nextMonday x, by omega, le_refl e⟩
  | case4 x h1 => rw [weeksLoop]; simp [h1]

theorem weeksLoop_pairwise (e c : Nat) :
    (weeksLoop e c).Pairwise (fun w w' => w.2 < w'.1) := by
  induction c using weeksLoop.induct e with
  | case1 x h1 h2 => rw [weeksLoop]; simp [h1, h2]
  | case2 x h1 h2 h3 ih =>
    rw [weeksLoop]
    simp only [h1, dite_true, if_neg h2, if_pos h3]
    refine List.Pairwise.cons (fun w hw => ?_) ih
    have hb := weeksLoop_bounds e _ w hw
    simp only at hb ⊢
    omega
  | case3 x h1 h2 h3 =>
    rw [weeksLoop]
    simp only [h1, dite_true, if_neg h2, if_neg h3]
    simp
  | case4 x h1 => rw [weeksLoop]; simp [h1]

/-- Every weekday of `[c, e]` is covered by some loop week, provided the
loop starts on a Monday or during a weekend (as it always does in
`get_trading_weeks`). -/
theorem weeksLoop_cover (e c : Nat) :
    c % 7 = 0 ∨ 5 ≤ c % 7 →
    ∀ d, c ≤ d → d ≤ e → d % 7 < 5 →
    ∃ w ∈ weeksLoop e c, w.1 ≤ d ∧ d ≤ w.2 := by
  induction c using weeksLoop.induct e with
  | case1 x h1 h2 =>
    intro hc d hd1 hd2 hd3
    exact absurd (weekend_before_nextMonday x d hc hd1 (by omega)) (by omega)
  | case2 x h1 h2 h3 ih =>
    intro hc d hd1 hd2 hd3
    have hm := nextMonday_mod x
    rw [weeksLoop]
    simp only [h1, dite_true, if_neg h2, if_pos h3]
    rcases Nat.lt_or_ge d (nextMonday x) with hlt | hge
    · exact absurd (weekend_before_nextMonday x d hc hd1 hlt) (by omega)
    rcases Nat.lt_or_ge d (nextMonday x + 5) with hlt5 | hge5
    · exact ⟨(nextMonday x, nextMonday x + 4), List.mem_cons_self _ _, hge, by omega⟩
    rcases Nat.lt_or_ge d (nextMonday x + 7) with hlt7 | hge7
    · omega
    · obtain ⟨w, hw, hw1, hw2⟩ := ih (by omega) d hge7 hd2 hd3
      exact ⟨w, List.mem_cons_of_mem _ hw, hw1, hw2⟩
  | case3 x h1 h2 h3 =>
    intro hc d hd1 hd2 hd3
    rw [weeksLoop]
    simp only [h1, dite_true, if_neg h2, if_neg h3]
    rcases Nat.lt_or_ge d (nextMonday x) with hlt | hge
    · exact absurd (weekend_before_nextMonday x d hc hd1 hlt) (by omega)
    · exact ⟨(nextMonday x, e), List.mem_singleton_self _, hge, hd2⟩
  | case4 x h1 =>
    intro hc d hd1 hd2 hd3
    omega

theorem weeksLoop_ne_nil (e c : Nat) (h1 : c ≤ e) (h2 : nextMonday c ≤ e) :
    (weeksLoop e c).isEmpty = false := by
  rw [weeksLoop, dif_pos h1, if_neg (Nat.not_lt.mpr h2)]
  split <;> simp

theorem gtw_startWeek (s e : Nat) (h7 : ¬ e - s ≤ 7)
    (hw : s % 7 ≠ 0 ∧ s % 7 ≤ 4 ∧ s + (4 - s % 7) ≤ e) :
    get_trading_weeks s e =
      (s, s + (4 - s % 7)) :: weeksLoop e (s + (4 - s % 7) + 3) := by
  unfold get_trading_weeks
  rw [if_neg h7]
  simp only [if_pos hw, List.singleton_append, List.isEmpty_cons,
    Bool.false_eq_true, if_false]

theorem gtw_loopOnly (s e : Nat)
    (h7 : ¬ e - s ≤ 7) (hse : s ≤ e)
    (hw : ¬ (s % 7 ≠ 0 ∧ s % 7 ≤ 4 ∧ s + (4 - s % 7) ≤ e)) :
    get_trading_weeks s e = weeksLoop e s := by
  have hne := weeksLoop_ne_nil e s hse (by have := nextMonday_lt s; omega)
  unfold get_trading_weeks
  rw [if_neg h7]
  simp only [if_neg hw, List.nil_append, hne, Bool.false_eq_true, if_false]

/-- C4: for every valid range, the trading weeks returned by
`get_trading_weeks` are pairwise non-overlapping (each week ends strictly
before the next begins, and no day lies in two weeks) and every weekday of
the range lies in some returned week.  Trading days are a subset of
weekdays (`d % 7 < 5`), so in particular every trading day of the range is
covered; `get_trading_weeks` itself never consults the holiday set. -/
theorem trading_weeks_partition (s e : Nat) (hse : s ≤ e) :
    (get_trading_weeks s e).Pairwise (fun w w' => w.2 < w'.1) ∧
    (∀ d w w', w ∈ get_trading_weeks s e → w' ∈ get_trading_weeks s e →
      w.1 ≤ d → d ≤ w.2 → w'.1 ≤ d → d ≤ w'.2 → w = w') ∧
    (∀ d, s ≤ d → d ≤ e → d % 7 < 5 →
      ∃ w ∈ get_trading_weeks s e, w.1 ≤ d ∧ d ≤ w.2) := by
  have main : (get_trading_weeks s e).Pairwise (fun w w' => w.2 < w'.1) ∧
      (∀ d, s ≤ d → d ≤ e → d % 7 < 5 →
        ∃ w ∈ get_trading_weeks s e, w.1 ≤ d ∧ d ≤ w.2) := by
    by_cases h7 : e - s ≤ 7
    · have hgw : get_trading_weeks s e = [(s, e)] := by
        unfold get_trading_weeks; rw [if_pos h7]
      rw [hgw]
      exact ⟨List.pairwise_singleton _ _,
        fun d h1 h2 _ => ⟨(s, e), List.mem_singleton_self _, h1, h2⟩⟩
    · by_cases hw : s % 7 ≠ 0 ∧ s % 7 ≤ 4 ∧ s + (4 - s % 7) ≤ e
      · rw [gtw_startWeek s e h7 hw]
        constructor
        · refine List.Pairwise.cons (fun w hwm => ?_) (weeksLoop_pairwise _ _)
          have hb := weeksLoop_bounds e _ w hwm
          simp only at hb ⊢
          omega
        · intro d hd1 hd2 hd3
          rcases Nat.lt_or_ge (s + (4 - s % 7)) d with hgt | hle
          · rcases Nat.lt_or_ge d (s + (4 - s % 7) + 3) with hlt3 | hge3
            · omega
            · obtain ⟨w, hwm, hw1, hw2⟩ :=
                weeksLoop_cover e (s + (4 - s % 7) + 3) (by omega) d hge3 hd2 hd3
              exact ⟨w, List.mem_cons_of_mem _ hwm, hw1, hw2⟩
          · exact ⟨(s, s + (4 - s % 7)), List.mem_cons_self _ _, hd1, hle⟩
      · rw [gtw_loopOnly s e h7 hse hw]
        refine ⟨weeksLoop_pairwise _ _, fun d hd1 hd2 hd3 => ?_⟩
        exact weeksLoop_cover e s (by omega) d hd1 hd2 hd3
  refine ⟨main.1, fun d w w' hwm hwm' hc1 hc2 hc3 hc4 => ?_, main.2⟩
  by_contra hne
  have hsym : (get_trading_weeks s e).Pairwise
      (fun a b => a.2 < b.1 ∨ b.2 < a.1) :=
    main.1.imp fun h => Or.inl h
  have := List.Pairwise.forall (R := fun (a b : Nat × Nat) => a.2 < b.1 ∨ b.2 < a.1)
    (fun a b h => h.symm) hsym hwm hwm' hne
  omega

/-- C4 witness: the partition property at the concrete range 0..10, with
coverage instantiated at day 3. -/
theorem trading_weeks_partition_witness :
    (get_trading_weeks 0 10).Pairwise (fun w w' => w.2 < w'.1) ∧
    (∃ w ∈ get_trading_weeks 0 10, w.1 ≤ 3 ∧ 3 ≤ w.2) := by
  have h := trading_weeks_partition 0 10 (by decide)
  exact ⟨h.1, h.2.2 3 (by decide) (by decide) (by decide)⟩

/-- C5: a range of at most 7 days (covering the claim's "spans at most 7
calendar days", i.e. `e - s ≤ 6`, and also the code's boundary `e - s = 7`)
is returned as the single week equal to the exact range, regardless of
which weekdays it covers. -/
theorem single_week_range (s e : Nat) (hse : s ≤ e) (h : e - s ≤ 7) :
    get_trading_weeks s e = [(s, e)] := by
  unfold get_trading_weeks; rw [if_pos h]

/-- C5 witness: the range 3..8 (Thursday to next Monday) is one exact
week. -/
theorem single_week_range_witness : get_trading_weeks 3 8 = [(3, 8)] :=
  single_week_range 3 8 (by decide) (by decide)

/-! ## Holiday-Friday shift (us_trading_calendar.py) -/

/-- The downward search of `friday_of_week` finds the greatest trading day
at or below its start, as long as one exists. -/
theorem stepBackTD_spec (hol : Nat → Bool) (n : Nat)
    (hex : ∃ d, d ≤ n ∧ isTradingDay hol d = true) :
    isTradingDay hol (stepBackTD hol n) = true ∧
    stepBackTD hol n ≤ n ∧
    (∀ d, stepBackTD hol n < d → d ≤ n → isTradingDay hol d = false) := by
  induction n with
  | zero =>
    obtain ⟨d, hd, htd⟩ := hex
    have : d = 0 := by omega
    subst this
    exact ⟨htd, le_refl 0, fun d h1 h2 => by omega⟩
  | succ n ih =>
    by_cases h : isTradingDay hol (n + 1) = true
    · rw [stepBackTD, if_pos h]
      exact ⟨h, le_refl _, fun d h1 h2 => by omega⟩
    · rw [stepBackTD, if_neg h]
      have hex' : ∃ d, d ≤ n ∧ isTradingDay hol d = true := by
        obtain ⟨d, hd, htd⟩ := hex
        rcases Nat.lt_or_ge d (n + 1) with hlt | hge
        · exact ⟨d, by omega, htd⟩
        · have : d = n + 1 := by omega
          subst this
          exact absurd htd h
      obtain ⟨ha, hb, hc⟩ := ih hex'
      refine ⟨ha, by omega, fun d h1 h2 => ?_⟩
      rcases Nat.lt_or_ge d (n + 1) with hlt | hge
      · exact hc d h1 (by omega)
      · have : d = n + 1 := by omega
        subst this
        exact Bool.not_eq_true _ |>.mp h ▸ (by
          cases hdd : isTradingDay hol (n + 1)
          · rfl
          · exact absurd hdd h)

/-- C6: a week whose Friday (`monday + 4`) is a holiday has its effective
end, `friday_of_week`, shifted to the prior trading day of that week (it is
a trading day, lies in `[monday, monday+4)`, and no later day of the week
trades), and the following week still starts on the correct next Monday:
evaluated from the following Saturday, `next_monday_trading_date` returns
`monday + 7` whenever that Monday is a trading day. -/
theorem friday_holiday_shift (hol : Nat → Bool) (m : Nat) (hm : m % 7 = 0)
    (hhol : hol (m + 4) = true)
    (hex : ∃ d, m ≤ d ∧ d < m + 4 ∧ isTradingDay hol d = true) :
    isTradingDay hol (friday_of_week hol m) = true ∧
    m ≤ friday_of_week hol m ∧
    friday_of_week hol m < m + 4 ∧
    (∀ d, friday_of_week hol m < d → d ≤ m + 4 →
      isTradingDay hol d = false) ∧
    (isTradingDay hol (m + 7) = true →
      next_monday_trading_date hol (m + 5) = m + 7) := by
  obtain ⟨d0, hd0m, hd0f, hd0t⟩ := hex
  have hspec := stepBackTD_spec hol (m + 4) ⟨d0, by omega, hd0t⟩
  have hnotf : isTradingDay hol (m + 4) = false := by
    unfold isTradingDay
    rw [hhol]
    simp
  rw [show friday_of_week hol m = stepBackTD hol (m + 4) from rfl]
  have hflt : stepBackTD hol (m + 4) < m + 4 := by
    rcases Nat.lt_or_ge (stepBackTD hol (m + 4)) (m + 4) with h | h
    · exact h
    · have heq : stepBackTD hol (m + 4) = m + 4 := by omega
      rw [heq] at hspec
      rw [hspec.1] at hnotf
      exact absurd hnotf (by simp)
  have hfm : m ≤ stepBackTD hol (m + 4) := by
    by_contra hcon
    have := hspec.2.2 d0 (by omega) (by omega)
    rw [hd0t] at this
    exact absurd this (by simp)
  refine ⟨hspec.1, hfm, hflt, fun d h1 h2 => hspec.2.2 d h1 h2, fun hm7 => ?_⟩
  unfold next_monday_trading_date
  have hmon : m + 5 + (7 - (m + 5) % 7) % 7 = m + 7 := by omega
  rw [hmon]
  simp [hm7]

/-- C6 witness: epoch week with the Friday (day 4) a holiday; the effective
end is a trading day before Friday, Friday itself does not trade, and the
next week starts on Monday day 7. -/
theorem friday_holiday_shift_witness :
    isTradingDay (fun d => decide (d = 4))
      (friday_of_week (fun d => decide (d = 4)) 0) = true ∧
    friday_of_week (fun d => decide (d = 4)) 0 < 4 ∧
    isTradingDay (fun d => decide (d = 4)) 4 = false ∧
    next_monday_trading_date (fun d => decide (d = 4)) 5 = 7 := by
  have h := friday_holiday_shift (fun d => decide (d = 4)) 0 (by decide)
    (by decide) ⟨3, by decide, by decide, by decide⟩
  exact ⟨h.1, h.2.2.1, h.2.2.2.1 4 h.2.2.1 (by omega), h.2.2.2.2 (by decide)⟩

/-! ## Capped replay return (C7) -/

/-- C7: whenever `simulate_trade` resolves an entry open `pe` and an exit
close `px`, the replay-mode trade return is the raw percentage return
`(px - pe)/pe * 100` clamped to the interval `[-stop_pct, er_pct]`. -/
theorem capped_return (bars : List Bar) (ed xd : Nat) (er st pe px : ℚ)
    (her : 0 < er) (hst : 0 < st)
    (hpe : entryOpen bars ed = some pe) (hpx : exitClose bars xd = some px) :
    simulate_trade bars ed xd er st =
      some (max (-st) (min er ((px - pe) / pe * 100))) := by
  unfold simulate_trade
  rw [hpe, hpx]
  dsimp only
  set r := (px - pe) / pe * 100 with hr
  by_cases h1 : er ≤ r
  · rw [if_pos h1, if_neg (by linarith : ¬ er ≤ -st)]
    rw [min_eq_left h1, max_eq_right (by linarith : -st ≤ er)]
  · rw [if_neg h1]
    by_cases h2 : r ≤ -st
    · rw [if_pos h2, min_eq_right (le_of_not_le h1), max_eq_left h2]
    · rw [if_neg h2, min_eq_right (le_of_not_le h1),
        max_eq_right (le_of_not_le h2)]

/-- C7 witness: entry $100 with `er = 2`, `stop = 2`: an exit at $103 is
capped to +2% and an exit at $90 is floored at -2%. -/
theorem capped_return_witness :
    simulate_trade [(0, 100, 103)] 0 0 2 2 = some 2 ∧
    simulate_trade [(0, 100, 90)] 0 0 2 2 = some (-2) := by
  constructor
  · have h := capped_return [(0, 100, 103)] 0 0 2 2 100 103
      (by norm_num) (by norm_num) (by decide) (by decide)
    rw [h]; norm_num [min_def, max_def]
  · have h := capped_return [(0, 100, 90)] 0 0 2 2 100 90
      (by norm_num) (by norm_num) (by decide) (by decide)
    rw [h]; norm_num [min_def, max_def]

/-! ## Entry share sizing (C10) -/

/-- C10: the share quantity is `max(1, floor(cap / px))`, and a candidate
whose price exceeds the configured capital per trade still gets exactly
one share rather than being skipped. -/
theorem entry_share_sizing (cap px : ℚ) (hpx : 0 < px) (hcap : 0 ≤ cap) :
    entryQty cap px = max 1 ⌊cap / px⌋ ∧
    (cap < px → entryQty cap px = 1) := by
  have hq : 0 ≤ cap / px := div_nonneg hcap hpx.le
  constructor
  · unfold entryQty pyTrunc
    rw [if_pos hq]
  · intro hlt
    unfold entryQty pyTrunc
    rw [if_pos hq]
    have h1 : cap / px < 1 := (div_lt_one hpx).mpr hlt
    have h0 : ⌊cap / px⌋ = 0 :=
      Int.floor_eq_zero_iff.mpr (Set.mem_Ico.mpr ⟨hq, h1⟩)
    rw [h0]
    decide

/-- C10 witness: $10,000 per trade and a $15,000 stock still buys one
share. -/
theorem entry_share_sizing_witness : entryQty 10000 15000 = 1 :=
  (entry_share_sizing 10000 15000 (by norm_num) (by norm_num)).2 (by norm_num)

/-! ## Regime filter fail-open (C9) -/

/-- C9: the regime evaluation fails open.  First conjunct: it can only
block (`= false`) when a check genuinely evaluated on available data and
failed -- either the SPY/EMA check had enough bars and the last close was
not above the EMA, or the VIX lookup succeeded with a nonempty series whose
last value exceeds the cap.  Second conjunct: when the SPY bars are missing
or insufficient for the EMA check and the VIX lookup fails (or returns
nothing), the evaluation returns pass. -/
theorem regime_fail_open (emaLen : Nat) (maxVix : ℚ) (spyBars : Option (List ℚ))
    (vixRes : Option (List ℚ)) :
    (spy_regime_ok emaLen maxVix spyBars vixRes = false →
      (0 < emaLen ∧ ∃ bs, spyBars = some bs ∧ emaLen + 2 < bs.length ∧
        bs.getLastD 0 ≤ ema bs emaLen) ∨
      (0 < maxVix ∧ ∃ vb, vixRes = some vb ∧ vb ≠ [] ∧ maxVix < vb.getLastD 0)) ∧
    ((∀ bs, spyBars = some bs → bs.length ≤ emaLen + 2) →
      (vixRes = none ∨ vixRes = some []) →
      spy_regime_ok emaLen maxVix spyBars vixRes = true) := by
  have hok : okEma emaLen spyBars = false →
      0 < emaLen ∧ ∃ bs, spyBars = some bs ∧ emaLen + 2 < bs.length ∧
        bs.getLastD 0 ≤ ema bs emaLen := by
    intro h
    unfold okEma at h
    by_cases hl : 0 < emaLen
    · rw [if_pos hl] at h
      cases hb : spyBars with
      | none => rw [hb] at h; dsimp only at h; exact absurd h (by simp)
      | some bs =>
        rw [hb] at h
        dsimp only at h
        by_cases hlen : emaLen + 2 < bs.length
        · rw [if_pos hlen] at h
          exact ⟨hl, bs, rfl, hlen, le_of_not_lt (of_decide_eq_false h)⟩
        · rw [if_neg hlen] at h; exact absurd h (by simp)
    · rw [if_neg hl] at h; exact absurd h (by simp)
  have main : spy_regime_ok emaLen maxVix spyBars vixRes = false →
      (0 < emaLen ∧ ∃ bs, spyBars = some bs ∧ emaLen + 2 < bs.length ∧
        bs.getLastD 0 ≤ ema bs emaLen) ∨
      (0 < maxVix ∧ ∃ vb, vixRes = some vb ∧ vb ≠ [] ∧
        maxVix < vb.getLastD 0) := by
    intro hfalse
    unfold spy_regime_ok at hfalse
    dsimp only at hfalse
    by_cases hcond : okEma emaLen spyBars = true ∧ 0 < maxVix
    · rw [if_pos hcond] at hfalse
      cases hv : vixRes with
      | none =>
        rw [hv] at hfalse
        dsimp only at hfalse
        rw [hcond.1] at hfalse
        exact absurd hfalse (by simp)
      | some vb =>
        rw [hv] at hfalse
        dsimp only at hfalse
        by_cases hne : vb ≠ []
        · rw [if_pos hne] at hfalse
          rw [hcond.1, Bool.true_and] at hfalse
          exact Or.inr ⟨hcond.2, vb, rfl, hne,
            lt_of_not_le (of_decide_eq_false hfalse)⟩
        · rw [if_neg hne] at hfalse
          rw [hcond.1] at hfalse
          exact absurd hfalse (by simp)
    · rw [if_neg hcond] at hfalse
      exact Or.inl (hok hfalse)
  refine ⟨main, fun hspy hvix => ?_⟩
  cases hres : spy_regime_ok emaLen maxVix spyBars vixRes with
  | true => rfl
  | false =>
    rcases main hres with ⟨_, bs, hbs, hlen, _⟩ | ⟨_, vb, hvb, hne, _⟩
    · exact absurd hlen (by have := hspy bs hbs; omega)
    · rcases hvix with h | h
      · rw [h] at hvb
        exact Option.noConfusion hvb
      · rw [h] at hvb
        injection hvb with h'
        exact absurd h'.symm hne


/-- C9 witness: with `emaLen = 1`, four SPY bars ending below the EMA and a
failed VIX lookup, the evaluation returns false only because the EMA check
genuinely failed (left disjunct of the first conjunct); and with only two
SPY bars, a VIX cap of 30 and a failed VIX lookup, the evaluation passes. -/
theorem regime_fail_open_witness :
    ((0 < 1 ∧ ∃ bs, (some [10, 10, 10, 5] : Option (List ℚ)) = some bs ∧
      1 + 2 < bs.length ∧ bs.getLastD 0 ≤ ema bs 1) ∨
     (0 < (0 : ℚ) ∧ ∃ vb, (none : Option (List ℚ)) = some vb ∧ vb ≠ [] ∧
      (0 : ℚ) < vb.getLastD 0)) ∧
    spy_regime_ok 1 30 (some [10, 10]) none = true := by
  constructor
  · exact (regime_fail_open 1 0 (some [10, 10, 10, 5]) none).1
      (by norm_num [spy_regime_ok, okEma, ema, List.getLastD])
  · exact (regime_fail_open 1 30 (some [10, 10]) none).2
      (fun bs hbs => by injection hbs with h; rw [← h]; decide)
      (Or.inl rfl)

/-! ## Live stop/trail monotonicity (C2) -/

theorem erStep_trail_level (p : LivePos) (last : ℚ) :
    (erStep p last).1.trail_level = p.trail_level := by
  unfold erStep; split <;> rfl

theorem trailStep_trail_mono (cfg : LiveCfg) (p : LivePos) (last : ℚ) :
    p.trail_level ≤ (trailStep cfg p last).1.trail_level := by
  unfold trailStep
  rcases htc : trailCandidate cfg p with _ | cand
  · exact le_refl _
  · dsimp only
    split
    · rename_i h
      exact le_of_lt h.2.2
    · exact le_refl _

theorem tick_trail_mono (cfg : LiveCfg) (p : LivePos) (last : ℚ) :
    p.trail_level ≤ (tickPos cfg p last).1.trail_level := by
  unfold tickPos
  split
  · exact le_refl _
  · dsimp only
    calc p.trail_level = (erStep p last).1.trail_level :=
          (erStep_trail_level p last).symm
      _ ≤ _ := trailStep_trail_mono cfg _ last

theorem posHistory_head (cfg : LiveCfg) (p : LivePos) (ls : List ℚ) :
    (posHistory cfg p ls).head? = some p := by
  cases ls <;> rfl

/-- C2 (amended): across the entire observed history of a position under
the monitor loop, `trail_level` is monotonically non-decreasing. -/
theorem trail_level_monotone (cfg : LiveCfg) (p : LivePos) (lasts : List ℚ) :
    List.Chain' (· ≤ ·) ((posHistory cfg p lasts).map LivePos.trail_level) := by
  induction lasts generalizing p with
  | nil => simp [posHistory]
  | cons l ls ih =>
    show List.Chain' (· ≤ ·)
      ((p :: posHistory cfg (tickPos cfg p l).1 ls).map LivePos.trail_level)
    rw [List.map_cons, List.chain'_cons']
    refine ⟨fun q hq => ?_, ih _⟩
    simp only [List.head?_map, posHistory_head, Option.map_some',
      Option.mem_def, Option.some.injEq] at hq
    subst hq
    exact tick_trail_mono cfg p l

/-- C2 counterexample: with percent trailing at 1% and an ER of 2% on a
$100 entry (initial stop/trail 99), a single tick at last = 103 first
raises the live stop to 102 (ER protect) and then immediately lowers it to
101 (trail ratchet), so the observed `stopPrice` history 99, 102, 101 is
not non-decreasing. -/
theorem stop_price_not_monotone_cex :
    (tickPos ⟨TrailMode.percent, 1/100, 1⟩
      ⟨100, none, 102, false, 99, 99⟩ 103).2 =
      [StopEvent.protect_ER 102, StopEvent.trail_ratchet 101] ∧
    (tickPos ⟨TrailMode.percent, 1/100, 1⟩
      ⟨100, none, 102, false, 99, 99⟩ 103).1.stop_aux = 101 ∧
    ((101 : ℚ) < 102) := by
  refine ⟨?_, ?_, by norm_num⟩ <;>
    norm_num [tickPos, erStep, trailStep, trailCandidate, round2, round_eq]

/-! ## ER protective raise (C3) -/

theorem erStep_fire (p : LivePos) (last : ℚ) (hhit : p.target_hit = false)
    (hge : p.er_level ≤ last) :
    erStep p last =
      ({ p with target_hit := true, stop_aux := round2 p.er_level },
       [StopEvent.protect_ER (round2 p.er_level)]) := by
  unfold erStep; rw [if_pos ⟨hhit, hge⟩]

theorem erStep_skip (p : LivePos) (last : ℚ) (h : p.target_hit = true) :
    erStep p last = (p, []) := by
  unfold erStep
  rw [if_neg fun hc => by rw [h] at hc; exact Bool.noConfusion hc.1]

theorem trailStep_hit (cfg : LiveCfg) (p : LivePos) (last : ℚ) :
    (trailStep cfg p last).1.target_hit = p.target_hit := by
  unfold trailStep
  rcases htc : trailCandidate cfg p with _ | cand
  · rfl
  · dsimp only
    split <;> rfl

theorem tick_hit_latch (cfg : LiveCfg) (p : LivePos) (last : ℚ)
    (h : p.target_hit = true) : (tickPos cfg p last).1.target_hit = true := by
  unfold tickPos
  split
  · exact h
  · dsimp only
    rw [trailStep_hit, erStep_skip p last h]
    exact h

theorem trailStep_no_protect (cfg : LiveCfg) (p : LivePos) (last : ℚ) :
    (trailStep cfg p last).2.countP isProtectER = 0 := by
  unfold trailStep
  rcases htc : trailCandidate cfg p with _ | cand
  · rfl
  · dsimp only
    split <;> simp [isProtectER]

theorem tick_no_protect (cfg : LiveCfg) (p : LivePos) (last : ℚ)
    (h : p.target_hit = true) :
    (tickPos cfg p last).2.countP isProtectER = 0 := by
  unfold tickPos
  split
  · rfl
  · dsimp only
    rw [List.countP_append, erStep_skip p last h]
    simp [trailStep_no_protect]

theorem runEvents_no_protect (cfg : LiveCfg) (p : LivePos) (lasts : List ℚ)
    (h : p.target_hit = true) :
    (runEvents cfg p lasts).countP isProtectER = 0 := by
  induction lasts generalizing p with
  | nil => rfl
  | cons l ls ih =>
    show ((tickPos cfg p l).2 ++
      runEvents cfg (tickPos cfg p l).1 ls).countP isProtectER = 0
    rw [List.countP_append, tick_no_protect cfg p l h,
      ih _ (tick_hit_latch cfg p l h)]

theorem posHistory_all_hit (cfg : LiveCfg) (p : LivePos) (lasts : List ℚ)
    (h : p.target_hit = true) :
    ((posHistory cfg p lasts).all fun q => q.target_hit) = true := by
  induction lasts generalizing p with
  | nil => simp [posHistory, h]
  | cons l ls ih =>
    show ((p :: posHistory cfg (tickPos cfg p l).1 ls).all
      fun q => q.target_hit) = true
    rw [List.all_cons, h, ih _ (tick_hit_latch cfg p l h)]
    rfl

/-- C3 (amended): on a monitoring tick with a positive last price at or
above the ER level while `target_hit` is still false, the tick latches
`target_hit` and issues a stop modification to the ER level rounded to the
nearest cent (`modify_stop` sets `auxPrice = round(new_stop, 2)`); across
the remainder of the trace exactly one ER protective raise is ever issued,
and `target_hit` never reverts to false. -/
theorem protective_raise (cfg : LiveCfg) (p : LivePos) (last : ℚ)
    (lasts : List ℚ) (hhit : p.target_hit = false) (hge : p.er_level ≤ last)
    (hpos : 0 < last) :
    (tickPos cfg p last).1.target_hit = true ∧
    StopEvent.protect_ER (round2 p.er_level) ∈ (tickPos cfg p last).2 ∧
    (runEvents cfg p (last :: lasts)).countP isProtectER = 1 ∧
    ((posHistory cfg (tickPos cfg p last).1 lasts).all
      fun q => q.target_hit) = true := by
  have hnl : ¬ last ≤ 0 := not_le.mpr hpos
  have hfire := erStep_fire p last hhit hge
  have hhit' : (tickPos cfg p last).1.target_hit = true := by
    unfold tickPos
    rw [if_neg hnl]
    dsimp only
    rw [trailStep_hit, hfire]
  have hev : (tickPos cfg p last).2 =
      StopEvent.protect_ER (round2 p.er_level) ::
        (trailStep cfg (erStep p last).1 last).2 := by
    unfold tickPos
    rw [if_neg hnl]
    dsimp only
    conv_lhs => rw [hfire]
    conv_rhs => rw [hfire]
    rfl
  refine ⟨hhit', ?_, ?_, posHistory_all_hit cfg _ lasts hhit'⟩
  · rw [hev]; exact List.mem_cons_self _ _
  · show ((tickPos cfg p last).2 ++
      runEvents cfg (tickPos cfg p last).1 lasts).countP isProtectER = 1
    rw [List.countP_append, runEvents_no_protect cfg _ lasts hhit', hev,
      List.countP_cons]
    simp [isProtectER, trailStep_no_protect]

/-- C3 witness: entry $100, ER 102, first tick at 103 latches the target
and issues exactly one ER protective raise across the trace [103, 104]. -/
theorem protective_raise_witness :
    (tickPos ⟨TrailMode.percent, 2/100, 1⟩
      ⟨100, none, 102, false, 99, 99⟩ 103).1.target_hit = true ∧
    StopEvent.protect_ER 102 ∈ (tickPos ⟨TrailMode.percent, 2/100, 1⟩
      ⟨100, none, 102, false, 99, 99⟩ 103).2 ∧
    (runEvents ⟨TrailMode.percent, 2/100, 1⟩
      ⟨100, none, 102, false, 99, 99⟩ [103, 104]).countP isProtectER = 1 := by
  have h := protective_raise ⟨TrailMode.percent, 2/100, 1⟩
    ⟨100, none, 102, false, 99, 99⟩ 103 [104] rfl (by norm_num) (by norm_num)
  have hr : round2 (102 : ℚ) = 102 := by norm_num [round2, round_eq]
  refine ⟨h.1, ?_, h.2.2.1⟩
  have h21 := h.2.1
  dsimp only at h21
  rw [hr] at h21
  exact h21

/-- C3 counterexample (to "raises the live stop to exactly erLevel"): with
entry $100 and `er_pct = 103/4096` the ER level is 104975/1024 =
102.5146484375, but the stop modification issued (and the resulting live
stop `auxPrice`) is the rounded 102.51, not the ER level itself. -/
theorem protective_raise_not_exact_cex :
    (tickPos ⟨TrailMode.atrMode, 2/100, 1⟩
      ⟨100, none, 104975/1024, false, 99, 99⟩ 103).2 =
      [StopEvent.protect_ER (10251/100)] ∧
    (tickPos ⟨TrailMode.atrMode, 2/100, 1⟩
      ⟨100, none, 104975/1024, false, 99, 99⟩ 103).1.target_hit = true ∧
    (tickPos ⟨TrailMode.atrMode, 2/100, 1⟩
      ⟨100, none, 104975/1024, false, 99, 99⟩ 103).1.stop_aux ≠
      (104975/1024 : ℚ) := by
  refine ⟨?_, ?_, ?_⟩ <;>
    norm_num [tickPos, erStep, trailStep, trailCandidate, round2, round_eq]

/-! ## Ranking and selection (C8) -/

theorem insertStable_perm (before : α → α → Bool) (x : α) (l : List α) :
    (insertStable before x l).Perm (x :: l) := by
  induction l with
  | nil => exact List.Perm.refl _
  | cons y ys ih =>
    unfold insertStable
    split
    · exact List.Perm.refl _
    · exact (List.Perm.cons y ih).trans (List.Perm.swap x y ys)

theorem sortStable_perm (before : α → α → Bool) (l : List α) :
    (sortStable before l).Perm l := by
  induction l with
  | nil => exact List.Perm.refl _
  | cons x xs ih =>
    exact (insertStable_perm before x _).trans (List.Perm.cons x ih)

theorem pairwise_insertDesc (x : Scored) (l : List Scored)
    (h : l.Pairwise fun a b => b.2 ≤ a.2) :
    (insertStable (fun a b => decide (b.2 ≤ a.2)) x l).Pairwise
      fun a b => b.2 ≤ a.2 := by
  induction l with
  | nil => simp [insertStable]
  | cons y ys ih =>
    rw [List.pairwise_cons] at h
    obtain ⟨hy, hys⟩ := h
    unfold insertStable
    by_cases hb : y.2 ≤ x.2
    · rw [if_pos (decide_eq_true hb)]
      refine List.Pairwise.cons (fun z hz => ?_) (List.Pairwise.cons hy hys)
      rcases List.mem_cons.mp hz with rfl | hz'
      · exact hb
      · exact le_trans (hy z hz') hb
    · rw [if_neg (by simpa using hb)]
      refine List.Pairwise.cons (fun z hz => ?_) (ih hys)
      have hmem :=
        (insertStable_perm (fun a b => decide (b.2 ≤ a.2)) x ys).mem_iff.mp hz
      rcases List.mem_cons.mp hmem with rfl | hz'
      · exact le_of_lt (lt_of_not_le hb)
      · exact hy z hz'

theorem sortDesc_pairwise (l : List Scored) :
    (sortDesc l).Pairwise fun a b => b.2 ≤ a.2 := by
  unfold sortDesc
  induction l with
  | nil => simp [sortStable]
  | cons x xs ih => exact pairwise_insertDesc x _ ih

theorem filter_insertDesc (x : Scored) (l : List Scored) (k : ℚ) :
    (insertStable (fun a b => decide (b.2 ≤ a.2)) x l).filter
      (fun p => decide (p.2 = k)) =
    if x.2 = k then x :: l.filter (fun p => decide (p.2 = k))
    else l.filter (fun p => decide (p.2 = k)) := by
  induction l with
  | nil =>
    by_cases hx : x.2 = k
    · simp [insertStable, List.filter, hx]
    · simp [insertStable, List.filter, hx]
  | cons y ys ih =>
    unfold insertStable
    by_cases hb : y.2 ≤ x.2
    · rw [if_pos (decide_eq_true hb)]
      by_cases hx : x.2 = k
      · simp [List.filter_cons, hx]
      · simp [List.filter_cons, hx]
    · rw [if_neg (by simpa using hb)]
      rw [List.filter_cons, ih]
      by_cases hx : x.2 = k
      · have hyk : ¬ (y.2 = k) := fun hyk => hb (by rw [hyk, hx])
        simp [List.filter_cons, hx, hyk]
      · by_cases hyk : y.2 = k
        · simp [List.filter_cons, hx, hyk]
        · simp [List.filter_cons, hx, hyk]

/-- Stability of the descending sort: the candidates at any fixed score
keep their original (universe) order. -/
theorem filter_sortDesc (l : List Scored) (k : ℚ) :
    (sortDesc l).filter (fun p => decide (p.2 = k)) =
      l.filter (fun p => decide (p.2 = k)) := by
  unfold sortDesc
  induction l with
  | nil => rfl
  | cons x xs ih =>
    show (insertStable _ x (sortStable _ xs)).filter _ = _
    rw [filter_insertDesc]
    by_cases hx : x.2 = k
    · rw [if_pos hx, ih, List.filter_cons]
      simp [hx]
    · rw [if_neg hx, ih, List.filter_cons]
      simp [hx]

/-- C8: the ranked list keeps exactly the candidates with at least 2 price
samples (each scored by 5-day momentum), the sort is a descending stable
permutation (ties keep universe order), and selection takes the first
`min(topN, count)` in that order; concretely, A/B/C with week momenta
+5, +2 and -1 rank [A, B, C] and top-2 selection yields [A, B]. -/
theorem momentum_ranking_selection (univ : List (String × List ℚ)) (n : Nat) :
    (sortDesc (weekRankings univ)).Perm (weekRankings univ) ∧
    (sortDesc (weekRankings univ)).Pairwise (fun a b => b.2 ≤ a.2) ∧
    (∀ k : ℚ, (sortDesc (weekRankings univ)).filter (fun p => decide (p.2 = k)) =
      (weekRankings univ).filter (fun p => decide (p.2 = k))) ∧
    selectTop univ n = (sortDesc (weekRankings univ)).take n ∧
    (selectTop univ n).length = min n (weekRankings univ).length ∧
    (∀ p ∈ weekRankings univ, ∃ prices, (p.1, prices) ∈ univ ∧
      2 ≤ prices.length ∧ p.2 = calculate_momentum prices 5) ∧
    selectTop [("A", [100, 105]), ("B", [100, 102]), ("C", [100, 99])] 2 =
      [("A", 5), ("B", 2)] := by
  have hperm := sortStable_perm (fun a b : Scored => decide (b.2 ≤ a.2))
    (weekRankings univ)
  have hlen : (sortDesc (weekRankings univ)).length =
      (weekRankings univ).length := hperm.length_eq
  refine ⟨hperm, sortDesc_pairwise _, filter_sortDesc _, ?_, ?_, ?_, ?_⟩
  · unfold selectTop
    exact List.take_eq_take.mpr (by omega)
  · unfold selectTop
    rw [List.length_take]
    omega
  · intro p hp
    unfold weekRankings at hp
    obtain ⟨sc, hsc, hf⟩ := List.mem_filterMap.mp hp
    split_ifs at hf with hlt
    injection hf with hf'
    subst hf'
    exact ⟨sc.2, by simpa using hsc, by omega, rfl⟩
  · norm_num [selectTop, weekRankings, sortDesc, sortStable, insertStable,
      calculate_momentum, List.filterMap, List.getLastD, List.getD]

/-! ## Emergency liquidation (C1) -/

/-- C1 counterexample: a portfolio worth $100k establishes the day-start
value on tick 1; it then drops to $50k (a 50% drawdown, far beyond the 10%
emergency stop).  Tick 2 detects the CRITICAL emergency-stop violation and
issues a full-liquidation command; tick 3 re-detects the very same
violation (the position is still reported open, e.g. the sells have not
filled) and issues a second full-liquidation command: there is no
liquidation-in-progress guard, so two full-liquidation commands are issued
across the trace. -/
theorem emergency_liquidation_not_idempotent_cex :
    monitorTrace {} (fun _ => "Other") none
      [([⟨"AAPL", 100, 100000, 0⟩], 20000),
       ([⟨"AAPL", 100, 50000, -5000⟩], 20000),
       ([⟨"AAPL", 100, 50000, -5000⟩], 20000)] =
      [[], [EmergencyAction.emergency_close_all [("AAPL", 100)]],
       [EmergencyAction.emergency_close_all [("AAPL", 100)]]] ∧
    countFullLiq (monitorTrace {} (fun _ => "Other") none
      [([⟨"AAPL", 100, 100000, 0⟩], 20000),
       ([⟨"AAPL", 100, 50000, -5000⟩], 20000),
       ([⟨"AAPL", 100, 50000, -5000⟩], 20000)]) = 2 := by
  have h : monitorTrace {} (fun _ => "Other") none
      [([⟨"AAPL", 100, 100000, 0⟩], 20000),
       ([⟨"AAPL", 100, 50000, -5000⟩], 20000),
       ([⟨"AAPL", 100, 50000, -5000⟩], 20000)] =
      [[], [EmergencyAction.emergency_close_all [("AAPL", 100)]],
       [EmergencyAction.emergency_close_all [("AAPL", 100)]]] := by
    norm_num [monitorTrace, monitorTick, checkSafetyViolations, totalValue,
      dailyPnl, activeItems, maxPositionConcentration, listMaxD,
      sectorConcentrations, bumpKey, dsvTruthy, executeEmergencyActions,
      emergencyCloseAll, closeLosing, sortStable, insertStable,
      List.filter, List.filterMap]
  refine ⟨h, ?_⟩
  rw [h]
  rfl

/-- C1 (amended): `execute_emergency_actions` keeps no
liquidation-in-progress state, so on every safety-check tick whose
violations contain a CRITICAL `emergency_stop_triggered` violation a
full-liquidation command is issued (again), selling exactly the positions
still reported open (`position > 0`) at that tick. -/
theorem emergency_liquidation_reissued (L : SafetyLimits)
    (sectorOf : String → String) (dsv : Option ℚ)
    (items : List PortfolioItem) (cash : ℚ)
    (hviol : (⟨"emergency_stop_triggered", "CRITICAL"⟩ : Violation) ∈
      checkSafetyViolations L dsv items cash sectorOf) :
    EmergencyAction.emergency_close_all (emergencyCloseAll items) ∈
      (monitorTick L sectorOf dsv items cash).2.2 := by
  unfold monitorTick
  dsimp only
  have hcrit : (⟨"emergency_stop_triggered", "CRITICAL"⟩ : Violation) ∈
      (checkSafetyViolations L dsv items cash sectorOf).filter
        (fun v => decide (v.severity = "CRITICAL")) :=
    List.mem_filter.mpr ⟨hviol, by simp⟩
  have hne : ((checkSafetyViolations L dsv items cash sectorOf).filter
      (fun v => decide (v.severity = "CRITICAL"))).isEmpty ≠ true := by
    intro habs
    rw [List.isEmpty_iff] at habs
    rw [habs] at hcrit
    exact absurd hcrit (List.not_mem_nil _)
  rw [if_neg hne]
  refine List.mem_filterMap.mpr ⟨_, hcrit, ?_⟩
  simp [executeEmergencyActions]

/-- C1 amended-claim witness: on the concrete violating tick, the
full-liquidation command selling the open AAPL position is issued. -/
theorem emergency_liquidation_reissued_witness :
    EmergencyAction.emergency_close_all
      (emergencyCloseAll [⟨"AAPL", 100, 50000, -5000⟩]) ∈
    (monitorTick {} (fun _ => "Other") (some 100000)
      [⟨"AAPL", 100, 50000, -5000⟩] 20000).2.2 := by
  refine emergency_liquidation_reissued {} (fun _ => "Other") (some 100000)
    [⟨"AAPL", 100, 50000, -5000⟩] 20000 ?_
  norm_num [checkSafetyViolations, totalValue, dailyPnl, activeItems,
    maxPositionConcentration, listMaxD, sectorConcentrations, bumpKey,
    dsvTruthy, List.filter, List.filterMap]

end WeeklyStocks
